import Mathlib

/-!
Verification of the ExactCut-Video-Tools cut-boundary engine.

The definitions below are a shallow embedding of the Python sources:
  * `src/vdscript_range_adjuster.py` — frame-type index, boundary search,
    range adjustment, range merging;
  * `src/1stGOP_analyzer.py` — starting-GOP tolerance calculation;
  * `src/scripts/vdscript_to_timecode_cutlist_generator.py` — VFR
    timestamp/duration translation.

Python dictionaries (`frame_types`, `frame_to_pts`) are embedded as
association lists with last-write-wins lookup; `max(dict.keys())`, which
raises `ValueError` on an empty dictionary, is embedded as an
`Option`-valued maximum, and a function that would propagate that
exception returns `none`.  Python `while` loops bounded by the maximum
known frame are embedded as fuel recursion with fuel `maxF + 1 - f`,
exactly the number of remaining iterations.  Python `int` arithmetic
that can go negative is carried out in `Int`; python `float` timestamps
are modelled as rationals.
-/

namespace ExactCut

/-- A Python dict `Nat → α` built by repeated assignment, as the list of
assignments in order: later entries overwrite earlier ones. -/
abbrev AList (α : Type) := List (Nat × α)

/-- `d.get(k)`: last-write-wins lookup, `none` when the key is absent. -/
def lookupLast {α : Type} (m : AList α) (k : Nat) : Option α :=
  (m.reverse.find? (fun e => e.1 == k)).map (fun e => e.2)

/-- The keys of the dict (with multiplicity of assignment). -/
def keys {α : Type} (m : AList α) : List Nat :=
  m.map (fun e => e.1)

/-- `max(d.keys())`: `none` on an empty dict (Python raises `ValueError`). -/
def maxKey? {α : Type} (m : AList α) : Option Nat :=
  match keys m with
  | [] => none
  | k :: ks => some (ks.foldl Nat.max k)

/-- The frame-type index of `vdscript_range_adjuster.py`:
frame number ↦ picture-type character from the ffmpeg log. -/
abbrev FrameTypes := AList Char

/-- The `while frame_num >= 0` loop of `find_nth_previous_i_frame`, counting
matched I-frames upward in `found` exactly as the Python counter does. -/
def fnpGo (ft : FrameTypes) (n : Nat) : Nat → Nat → Nat
  | f, found =>
    if lookupLast ft f = some 'I' then
      if found + 1 = n then f
      else
        match f with
        | 0 => 0
        | f' + 1 => fnpGo ft n f' (found + 1)
    else
      match f with
      | 0 => 0
      | f' + 1 => fnpGo ft n f' found

/-- `find_nth_previous_i_frame(frame_num, frame_types, n)`: scan downward
from `f` inclusive for the `n`-th I-frame; `0` when not enough exist. -/
def find_nth_previous_i_frame (f : Nat) (ft : FrameTypes) (n : Nat) : Nat :=
  fnpGo ft n f 0

/-- The `while frame_num <= max_frame` loop of `find_last_p_frame_before_next_i`;
`fuel` is the number of remaining iterations `maxF + 1 - f`,
`lastP` the `last_p_frame` variable. -/
def flpGo (ft : FrameTypes) (maxF : Nat) : Nat → Nat → Option Nat → Nat
  | 0, _, lastP => lastP.getD maxF
  | fuel + 1, f, lastP =>
    if lookupLast ft f = some 'I' ∧ lastP ≠ none then lastP.getD maxF
    else flpGo ft maxF fuel (f + 1)
      (if lookupLast ft f = some 'P' then some f else lastP)

/-- `find_last_p_frame_before_next_i(frame_num, frame_types)`: track the
last P-frame seen scanning upward; return it on meeting an I-frame, else
fall back to the maximum known frame.  `none` models the `ValueError`
Python raises on an empty index. -/
def find_last_p_frame_before_next_i (f : Nat) (ft : FrameTypes) : Option Nat :=
  (maxKey? ft).map (fun maxF => flpGo ft maxF (maxF + 1 - f) f none)

/-- The `while next_frame <= max_frame` loop of `find_next_p_or_i_frame`;
`fuel` is the number of remaining iterations, `orig` the argument frame
returned when the scan finds nothing. -/
def fnpiGo (ft : FrameTypes) (orig : Nat) : Nat → Nat → Nat
  | 0, _ => orig
  | fuel + 1, cur =>
    if lookupLast ft cur = some 'I' ∨ lookupLast ft cur = some 'P' then cur
    else fnpiGo ft orig fuel (cur + 1)

/-- `find_next_p_or_i_frame(frame_num, frame_types)`: the frame itself if
already I or P, else the first I-or-P frame strictly above it, else the
frame itself.  `none` models the `ValueError` on an empty index. -/
def find_next_p_or_i_frame (f : Nat) (ft : FrameTypes) : Option Nat :=
  (maxKey? ft).map (fun maxF =>
    if lookupLast ft f = some 'I' ∨ lookupLast ft f = some 'P' then f
    else fnpiGo ft f (maxF - f) (f + 1))

/-- `adjust_range(start, length, frame_types, i_frame_offset,
short_cut_mode)`: snap the start to the `i_frame_offset`-th previous
I-frame and the end to the configured boundary; the returned length is
the Python `int` `new_end - new_start + 1`. -/
def adjust_range (start len : Nat) (ft : FrameTypes) (iFrameOffset : Nat)
    (shortCutMode : Bool) : Option (Nat × Int) :=
  let newStart := find_nth_previous_i_frame start ft iFrameOffset
  let endF := start + len - 1
  let newEnd? :=
    if shortCutMode then find_next_p_or_i_frame endF ft
    else find_last_p_frame_before_next_i endF ft
  newEnd?.map (fun newEnd => (newStart, (newEnd : Int) - (newStart : Int) + 1))

/-- The loop of `merge_ranges`: `prev` is the open range `merged[-1]`, mutated
in place by the Python code; the gap test is Python `int` arithmetic. -/
def mergeGo (minGap : Int) (prev : Nat × Nat) : List (Nat × Nat) → List (Nat × Nat)
  | [] => [prev]
  | cur :: rest =>
    if (cur.1 : Int) - ((prev.1 : Int) + (prev.2 : Int)) ≤ minGap then
      mergeGo minGap (prev.1, Nat.max (prev.1 + prev.2) (cur.1 + cur.2) - prev.1) rest
    else
      prev :: mergeGo minGap cur rest

/-- `merge_ranges(ranges, min_gap)`: coalesce ranges whose gap to the
open range is at most `min_gap`. -/
def merge_ranges (ranges : List (Nat × Nat)) (minGap : Int) : List (Nat × Nat) :=
  match ranges with
  | [] => []
  | r :: rest => mergeGo minGap r rest

/-! ### `src/1stGOP_analyzer.py` -/

/-- `find_next_i_frame(start_frame, end_frame, frame_types)`: the first
I-frame in Python `range(start_frame + 1, end_frame + 1)`, or `None`. -/
def find_next_i_frame (startF endF : Nat) (ft : FrameTypes) : Option Nat :=
  (List.range' (startF + 1) (endF + 1 - (startF + 1))).find?
    (fun k => lookupLast ft k == some 'I')

/-- The per-range body of `calculate_gop_sizes`: the starting-GOP size of
one range.  `if next_i_frame:` is Python truthiness, so a found frame `0`
would fall to the `else` branch like `None`. -/
def gop_size (startF rangeLength : Nat) (ft : FrameTypes) : Nat :=
  let endF := startF + rangeLength - 1
  match find_next_i_frame startF endF ft with
  | some g => if g = 0 then rangeLength else g - startF
  | none => rangeLength

/-- `calculate_gop_sizes`: the starting-GOP sizes of the ranges, in input
order. -/
def calculate_gop_sizes (ranges : List (Nat × Nat)) (ft : FrameTypes) : List Nat :=
  ranges.map (fun r => gop_size r.1 r.2 ft)

/-- `min(gop_sizes)` as written by `write_gop_info_to_file`, which guards
the empty case (`none` here). -/
def smallest_gop (sizes : List Nat) : Option Nat :=
  match sizes with
  | [] => none
  | s :: rest => some (rest.foldl Nat.min s)

/-! ### `src/scripts/vdscript_to_timecode_cutlist_generator.py` -/

/-- The `frame_to_pts` dictionary: frame number ↦ `pts_time`
(a Python float, modelled as a rational). -/
abbrev FramePts := AList ℚ

/-- The `last_frame_dur` computation of `main`: `pts[last] - pts[prev]`
over the two largest logged frame numbers, or the `0.04` fallback when
only one frame is known (`len(sorted_frames) > 1` is false exactly when
every logged frame number equals the maximum). -/
def last_frame_dur (m : FramePts) (lastKnown : Nat) : ℚ :=
  match maxKey? (m.filter (fun e => e.1 != lastKnown)) with
  | none => 4 / 100
  | some prevK => (lookupLast m lastKnown).getD 0 - (lookupLast m prevK).getD 0

/-- The per-segment duration computation of `main`: exact
`pts[boundary] - pts[start]` when the frame one past the range end is
logged, otherwise extrapolation from the last known frame duration.
`none` models a skipped segment (no PTS for the start frame); the inner
`none` branch for an empty index is unreachable once the start lookup
succeeded. -/
def segment_duration (m : FramePts) (startF rangeLength : Nat) : Option ℚ :=
  match lookupLast m startF with
  | none => none
  | some startPts =>
    let boundary := startF + rangeLength
    match lookupLast m boundary with
    | some endPts => some (endPts - startPts)
    | none =>
      match maxKey? m with
      | none => none
      | some lastKnown =>
        some ((lookupLast m lastKnown).getD 0
          + last_frame_dur m lastKnown * ((boundary : ℚ) - (lastKnown : ℚ))
          - startPts)

/-! ### Basic lemmas about the dict embedding -/

theorem lookupLast_nil {α : Type} (k : Nat) : lookupLast ([] : AList α) k = none := rfl

theorem lookupLast_mem {α : Type} {m : AList α} {k : Nat} {v : α}
    (h : lookupLast m k = some v) : (k, v) ∈ m := by
  unfold lookupLast at h
  cases hf : m.reverse.find? (fun e => e.1 == k) with
  | none => simp [hf] at h
  | some e =>
    have he1 := List.find?_some hf
    simp only [beq_iff_eq] at he1
    have he2 : e ∈ m.reverse := List.mem_of_find?_eq_some hf
    rw [List.mem_reverse] at he2
    simp [hf] at h
    have : e = (k, v) := by
      rcases e with ⟨a, b⟩
      simp only [Prod.mk.injEq]
      exact ⟨he1, h⟩
    rw [this] at he2
    exact he2

theorem mem_keys_of_lookup {α : Type} {m : AList α} {k : Nat} {v : α}
    (h : lookupLast m k = some v) : k ∈ keys m := by
  have := lookupLast_mem h
  exact List.mem_map.mpr ⟨(k, v), this, rfl⟩

theorem lookup_of_mem_keys {α : Type} {m : AList α} {k : Nat}
    (h : k ∈ keys m) : ∃ v, lookupLast m k = some v := by
  rcases List.mem_map.mp h with ⟨e, he, hk⟩
  have hmem : e ∈ m.reverse := List.mem_reverse.mpr he
  have : ∃ x, x ∈ m.reverse ∧ (fun y : Nat × α => y.1 == k) x = true :=
    ⟨e, hmem, by simp [hk]⟩
  rw [← List.find?_isSome] at this
  cases hf : m.reverse.find? (fun y => y.1 == k) with
  | none => rw [hf] at this; simp at this
  | some e' => exact ⟨e'.2, by unfold lookupLast; rw [hf]; rfl⟩

theorem keys_nil_iff {α : Type} {m : AList α} : keys m = [] ↔ m = [] := by
  unfold keys
  exact List.map_eq_nil_iff

/-- Helper: the starting value is below the fold of `Nat.max`. -/
theorem foldl_max_init_le (l : List Nat) (a : Nat) : a ≤ l.foldl Nat.max a := by
  induction l generalizing a with
  | nil => exact Nat.le_refl a
  | cons b l ih =>
    exact Nat.le_trans (Nat.le_max_left a b) (ih (Nat.max a b))

/-- Helper: every member is below the fold of `Nat.max`. -/
theorem foldl_max_mem_le {l : List Nat} {x : Nat} (h : x ∈ l) (a : Nat) :
    x ≤ l.foldl Nat.max a := by
  induction l generalizing a with
  | nil => cases h
  | cons b l ih =>
    rcases List.mem_cons.mp h with rfl | h'
    · exact Nat.le_trans (Nat.le_max_right a x) (foldl_max_init_le l (Nat.max a x))
    · exact ih h' (Nat.max a b)

/-- Helper: the fold of `Nat.max` is the start or a member. -/
theorem foldl_max_eq_or_mem (l : List Nat) (a : Nat) :
    l.foldl Nat.max a = a ∨ l.foldl Nat.max a ∈ l := by
  induction l generalizing a with
  | nil => exact Or.inl rfl
  | cons b l ih =>
    simp only [List.foldl_cons]
    rcases ih (Nat.max a b) with h | h
    · rcases Nat.le_total a b with hab | hba
      · rw [show Nat.max a b = b from Nat.max_eq_right hab] at h ⊢
        exact Or.inr (by rw [h]; exact List.mem_cons_self b l)
      · rw [show Nat.max a b = a from Nat.max_eq_left hba] at h ⊢
        exact Or.inl h
    · exact Or.inr (List.mem_cons.mpr (Or.inr h))

theorem maxKey?_eq_none_iff {α : Type} {m : AList α} : maxKey? m = none ↔ m = [] := by
  unfold maxKey?
  cases hk : keys m with
  | nil => simpa using keys_nil_iff.mp hk
  | cons k ks =>
    constructor
    · intro h; simp at h
    · intro h; rw [h] at hk; simp [keys] at hk

theorem maxKey?_isSome {α : Type} {m : AList α} (h : m ≠ []) :
    ∃ mk, maxKey? m = some mk := by
  cases hm : maxKey? m with
  | none => exact absurd (maxKey?_eq_none_iff.mp hm) h
  | some mk => exact ⟨mk, rfl⟩

theorem le_maxKey {α : Type} {m : AList α} {mk : Nat}
    (h : maxKey? m = some mk) : ∀ k ∈ keys m, k ≤ mk := by
  intro k hk
  unfold maxKey? at h
  cases hks : keys m with
  | nil => rw [hks] at h; simp at h
  | cons k0 ks =>
    rw [hks] at h
    simp at h
    rw [hks] at hk
    rcases List.mem_cons.mp hk with rfl | hk'
    · rw [← h]; exact foldl_max_init_le ks k
    · rw [← h]; exact foldl_max_mem_le hk' k0

theorem maxKey_mem {α : Type} {m : AList α} {mk : Nat}
    (h : maxKey? m = some mk) : mk ∈ keys m := by
  unfold maxKey? at h
  cases hks : keys m with
  | nil => rw [hks] at h; simp at h
  | cons k0 ks =>
    rw [hks] at h
    simp at h
    rcases foldl_max_eq_or_mem ks k0 with h' | h'
    · rw [← h, h']; exact List.mem_cons_self k0 ks
    · rw [← h]; exact List.mem_cons.mpr (Or.inr h')

/-! ### Counting I-frames on an interval -/

/-- The number of frames in `[lo, hi]` the index records as `I`. -/
def countISeg (ft : FrameTypes) (lo hi : Nat) : Nat :=
  (List.range' lo (hi + 1 - lo)).countP (fun k => lookupLast ft k == some 'I')

theorem countISeg_self (ft : FrameTypes) (f : Nat) :
    countISeg ft f f = if lookupLast ft f = some 'I' then 1 else 0 := by
  unfold countISeg
  have h1 : f + 1 - f = 1 := by omega
  rw [h1, List.range'_one, List.countP_cons]
  simp [List.countP_nil]

theorem countISeg_succ (ft : FrameTypes) {lo hi : Nat} (h : lo ≤ hi + 1) :
    countISeg ft lo (hi + 1)
      = countISeg ft lo hi + (if lookupLast ft (hi + 1) = some 'I' then 1 else 0) := by
  unfold countISeg
  have h1 : hi + 1 + 1 - lo = (hi + 1 - lo) + 1 := by omega
  have h2 : lo + (hi + 1 - lo) = hi + 1 := by omega
  rw [h1, List.range'_1_concat, h2, List.countP_append, List.countP_cons]
  simp [List.countP_nil]

/-! ### `find_nth_previous_i_frame` -/

theorem fnpGo_le (ft : FrameTypes) (n : Nat) :
    ∀ f found, fnpGo ft n f found ≤ f := by
  intro f
  induction f with
  | zero =>
    intro found
    rw [fnpGo]
    split
    · split
      · exact Nat.le_refl 0
      · exact Nat.le_refl 0
    · exact Nat.le_refl 0
  | succ f' ih =>
    intro found
    rw [fnpGo]
    split
    · split
      · exact Nat.le_refl _
      · exact Nat.le_trans (ih (found + 1)) (Nat.le_succ f')
    · exact Nat.le_trans (ih found) (Nat.le_succ f')

theorem fnpGo_zero_or_I (ft : FrameTypes) (n : Nat) :
    ∀ f found, fnpGo ft n f found = 0
      ∨ lookupLast ft (fnpGo ft n f found) = some 'I' := by
  intro f
  induction f with
  | zero =>
    intro found
    rw [fnpGo]
    split
    · split
      · exact Or.inl rfl
      · exact Or.inl rfl
    · exact Or.inl rfl
  | succ f' ih =>
    intro found
    rw [fnpGo]
    split
    · split
      · next hI _ => exact Or.inr hI
      · exact ih (found + 1)
    · exact ih found

theorem fnpGo_spec (ft : FrameTypes) (n : Nat) :
    ∀ f found, found < n →
      (countISeg ft 0 f < n - found → fnpGo ft n f found = 0) ∧
      (n - found ≤ countISeg ft 0 f →
        lookupLast ft (fnpGo ft n f found) = some 'I' ∧
        fnpGo ft n f found ≤ f ∧
        countISeg ft (fnpGo ft n f found) f = n - found) := by
  intro f
  induction f with
  | zero =>
    intro found hfound
    have hc := countISeg_self ft 0
    rw [fnpGo]
    by_cases hI : lookupLast ft 0 = some 'I'
    · rw [if_pos hI]
      rw [if_pos hI] at hc
      by_cases hn : found + 1 = n
      · rw [if_pos hn]
        constructor
        · intro hlt; omega
        · intro _; exact ⟨hI, Nat.le_refl 0, by omega⟩
      · rw [if_neg hn]
        constructor
        · intro _; rfl
        · intro hge; omega
    · rw [if_neg hI]
      rw [if_neg hI] at hc
      constructor
      · intro _; rfl
      · intro hge; omega
  | succ f' ih =>
    intro found hfound
    have hsplit := @countISeg_succ ft 0 f' (by omega)
    rw [fnpGo]
    by_cases hI : lookupLast ft (f' + 1) = some 'I'
    · rw [if_pos hI]
      rw [if_pos hI] at hsplit
      by_cases hn : found + 1 = n
      · rw [if_pos hn]
        constructor
        · intro hlt; omega
        · intro _
          refine ⟨hI, Nat.le_refl _, ?_⟩
          rw [countISeg_self, if_pos hI]; omega
      · rw [if_neg hn]
        have hfound' : found + 1 < n := by omega
        have IH := ih (found + 1) hfound'
        constructor
        · intro hlt
          exact IH.1 (by omega)
        · intro hge
          obtain ⟨hI', hle, hcnt⟩ := IH.2 (by omega)
          refine ⟨hI', Nat.le_trans hle (Nat.le_succ f'), ?_⟩
          rw [countISeg_succ ft (by omega), if_pos hI]
          omega
    · rw [if_neg hI]
      rw [if_neg hI] at hsplit
      have IH := ih found hfound
      constructor
      · intro hlt
        exact IH.1 (by omega)
      · intro hge
        obtain ⟨hI', hle, hcnt⟩ := IH.2 (by omega)
        refine ⟨hI', Nat.le_trans hle (Nat.le_succ f'), ?_⟩
        rw [countISeg_succ ft (by omega), if_neg hI]
        omega

/-- C2: `find_nth_previous_i_frame` scans downward starting at and
including `f` and returns the frame at which the `n`-th I-frame
(counting from 1) is found: if `f` is itself `I` then the result for
`n = 1` is `f`; if fewer than `n` I-frames exist in `[0, f]` the result
is `0` (a defined floor — the function is total, never an error, and its
`Nat` result is never negative); otherwise the result is an I-frame
`r ≤ f` with exactly `n` I-frames in `[r, f]`. -/
theorem nth_previous_i_frame_spec (ft : FrameTypes) (f n : Nat) (hn : 1 ≤ n) :
    (lookupLast ft f = some 'I' → find_nth_previous_i_frame f ft 1 = f) ∧
    (countISeg ft 0 f < n → find_nth_previous_i_frame f ft n = 0) ∧
    (n ≤ countISeg ft 0 f →
      lookupLast ft (find_nth_previous_i_frame f ft n) = some 'I' ∧
      find_nth_previous_i_frame f ft n ≤ f ∧
      countISeg ft (find_nth_previous_i_frame f ft n) f = n) := by
  have hspec := fnpGo_spec ft n f 0 (by omega)
  refine ⟨?_, ?_, ?_⟩
  · intro hI
    unfold find_nth_previous_i_frame
    rw [fnpGo.eq_def]
    simp [hI]
  · intro hlt
    exact hspec.1 (by omega)
  · intro hge
    have h := hspec.2 (by omega)
    simpa using h

/-- Witness for C2 at the index `{0 ↦ I, 2 ↦ I}`, `f = 2`, `n = 2`:
the second previous I-frame from frame 2 is frame 0. -/
theorem nth_previous_i_frame_spec_witness :
    lookupLast [(0, 'I'), (2, 'I')] (find_nth_previous_i_frame 2 [(0, 'I'), (2, 'I')] 2) = some 'I' ∧
    find_nth_previous_i_frame 2 [(0, 'I'), (2, 'I')] 2 ≤ 2 ∧
    countISeg [(0, 'I'), (2, 'I')] (find_nth_previous_i_frame 2 [(0, 'I'), (2, 'I')] 2) 2 = 2 :=
  (nth_previous_i_frame_spec [(0, 'I'), (2, 'I')] 2 2 (by decide)).2.2 (by decide)

/-! ### `find_last_p_frame_before_next_i` -/

theorem flpGo_spec (ft : FrameTypes) (maxF e : Nat) :
    ∀ fuel f lastP, e ≤ f →
      (∀ p, lastP = some p → lookupLast ft p = some 'P' ∧ e ≤ p) →
      (lookupLast ft (flpGo ft maxF fuel f lastP) = some 'P'
          ∧ e ≤ flpGo ft maxF fuel f lastP)
        ∨ flpGo ft maxF fuel f lastP = maxF := by
  intro fuel
  induction fuel with
  | zero =>
    intro f lastP _ hinv
    cases lastP with
    | none => exact Or.inr rfl
    | some p => exact Or.inl (hinv p rfl)
  | succ fuel ih =>
    intro f lastP hef hinv
    rw [flpGo]
    split
    · next hcond =>
      cases lastP with
      | none => exact absurd rfl hcond.2
      | some p => exact Or.inl (hinv p rfl)
    · apply ih (f + 1) _ (by omega)
      intro p hp
      by_cases hP : lookupLast ft f = some 'P'
      · rw [if_pos hP] at hp
        obtain rfl : f = p := Option.some.inj hp
        exact ⟨hP, hef⟩
      · rw [if_neg hP] at hp
        exact hinv p hp

theorem flp_characterization {ft : FrameTypes} {f r : Nat}
    (h : find_last_p_frame_before_next_i f ft = some r) :
    (lookupLast ft r = some 'P' ∧ f ≤ r) ∨ maxKey? ft = some r := by
  unfold find_last_p_frame_before_next_i at h
  cases hm : maxKey? ft with
  | none => rw [hm] at h; simp at h
  | some maxF =>
    rw [hm] at h
    simp only [Option.map_some'] at h
    have hr := Option.some.inj h
    rcases flpGo_spec ft maxF f (maxF + 1 - f) f none (Nat.le_refl f)
        (fun p hp => by cases hp) with hc | hc
    · rw [hr] at hc
      exact Or.inl hc
    · rw [hr] at hc
      exact Or.inr (by rw [hc])

theorem flp_isSome {ft : FrameTypes} (h : ft ≠ []) (f : Nat) :
    ∃ r, find_last_p_frame_before_next_i f ft = some r := by
  obtain ⟨mk, hmk⟩ := maxKey?_isSome h
  exact ⟨_, by unfold find_last_p_frame_before_next_i; rw [hmk]; rfl⟩

/-- C3: on a non-empty index, `find_last_p_frame_before_next_i` returns a
frame, and that frame is either recorded as `P` or is the maximum known
frame number (the fallback); it is never an `I` or `B` frame other than
possibly the maximum itself. -/
theorem last_p_frame_spec (ft : FrameTypes) (f : Nat) (h : ft ≠ []) :
    ∃ r, find_last_p_frame_before_next_i f ft = some r ∧
      (lookupLast ft r = some 'P' ∨ maxKey? ft = some r) := by
  obtain ⟨r, hr⟩ := flp_isSome h f
  rcases flp_characterization hr with hc | hc
  · exact ⟨r, hr, Or.inl hc.1⟩
  · exact ⟨r, hr, Or.inr hc⟩

/-- Witness for C3 at the index `{0 ↦ I, 1 ↦ P, 2 ↦ I}`, `f = 0`:
the returned frame 1 is a `P` frame. -/
theorem last_p_frame_spec_witness :
    ∃ r, find_last_p_frame_before_next_i 0 [(0, 'I'), (1, 'P'), (2, 'I')] = some r ∧
      (lookupLast [(0, 'I'), (1, 'P'), (2, 'I')] r = some 'P'
        ∨ maxKey? [(0, 'I'), (1, 'P'), (2, 'I')] = some r) :=
  last_p_frame_spec [(0, 'I'), (1, 'P'), (2, 'I')] 0 (by decide)

/-! ### `find_next_p_or_i_frame` -/

/-- Frame `k` is recorded as `I` or `P` (the Python `in ['I', 'P']` test). -/
def isPI (ft : FrameTypes) (k : Nat) : Prop :=
  lookupLast ft k = some 'I' ∨ lookupLast ft k = some 'P'

instance (ft : FrameTypes) (k : Nat) : Decidable (isPI ft k) := by
  unfold isPI; infer_instance

theorem fnpiGo_ge (ft : FrameTypes) (orig : Nat) :
    ∀ fuel cur, fnpiGo ft orig fuel cur = orig ∨ cur ≤ fnpiGo ft orig fuel cur := by
  intro fuel
  induction fuel with
  | zero => intro cur; exact Or.inl rfl
  | succ fuel ih =>
    intro cur
    rw [fnpiGo]
    split
    · exact Or.inr (Nat.le_refl cur)
    · rcases ih (cur + 1) with h | h
      · exact Or.inl h
      · exact Or.inr (Nat.le_trans (Nat.le_succ cur) h)

theorem fnpiGo_none (ft : FrameTypes) (orig : Nat) :
    ∀ fuel cur, (∀ k, cur ≤ k → k < cur + fuel → ¬ isPI ft k) →
      fnpiGo ft orig fuel cur = orig := by
  intro fuel
  induction fuel with
  | zero => intro cur _; rfl
  | succ fuel ih =>
    intro cur hall
    rw [fnpiGo]
    rw [if_neg (show ¬(lookupLast ft cur = some 'I' ∨ lookupLast ft cur = some 'P') from
      hall cur (Nat.le_refl cur) (by omega))]
    exact ih (cur + 1) (fun k h1 h2 => hall k (by omega) (by omega))

theorem fnpiGo_found (ft : FrameTypes) (orig : Nat) :
    ∀ fuel cur g, cur ≤ g → g < cur + fuel → isPI ft g →
      (∀ k, cur ≤ k → k < g → ¬ isPI ft k) →
      fnpiGo ft orig fuel cur = g := by
  intro fuel
  induction fuel with
  | zero => intro cur g h1 h2 _ _; omega
  | succ fuel ih =>
    intro cur g h1 h2 hg hmin
    rw [fnpiGo]
    by_cases hcur : cur = g
    · subst hcur
      rw [if_pos (show lookupLast ft cur = some 'I' ∨ lookupLast ft cur = some 'P' from hg)]
    · rw [if_neg (show ¬(lookupLast ft cur = some 'I' ∨ lookupLast ft cur = some 'P') from
        hmin cur (Nat.le_refl cur) (by omega))]
      exact ih (cur + 1) g (by omega) (by omega) hg
        (fun k hk1 hk2 => hmin k (by omega) hk2)

/-- C4: on a non-empty index, `find_next_p_or_i_frame f` returns `f`
unchanged when `f` is recorded `P` or `I`; otherwise it returns the
smallest frame strictly above `f` (up to the maximum known frame)
recorded `P` or `I`; and when no such frame exists it returns `f` itself
as the fallback, not a distinct not-found signal. -/
theorem next_p_or_i_frame_spec (ft : FrameTypes) (f : Nat) (h : ft ≠ []) :
    ∃ maxF, maxKey? ft = some maxF ∧
      (isPI ft f → find_next_p_or_i_frame f ft = some f) ∧
      (¬ isPI ft f → ∀ g, f < g → g ≤ maxF → isPI ft g →
        (∀ k, f < k → k < g → ¬ isPI ft k) →
        find_next_p_or_i_frame f ft = some g) ∧
      (¬ isPI ft f → (∀ k, f < k → k ≤ maxF → ¬ isPI ft k) →
        find_next_p_or_i_frame f ft = some f) := by
  obtain ⟨maxF, hmax⟩ := maxKey?_isSome h
  refine ⟨maxF, hmax, ?_, ?_, ?_⟩
  · intro hPI
    unfold find_next_p_or_i_frame
    rw [hmax]
    simp only [Option.map_some']
    rw [if_pos (show lookupLast ft f = some 'I' ∨ lookupLast ft f = some 'P' from hPI)]
  · intro hPI g hg1 hg2 hgPI hmin
    unfold find_next_p_or_i_frame
    rw [hmax]
    simp only [Option.map_some']
    rw [if_neg (show ¬(lookupLast ft f = some 'I' ∨ lookupLast ft f = some 'P') from hPI)]
    rw [fnpiGo_found ft f (maxF - f) (f + 1) g (by omega) (by omega) hgPI
      (fun k hk1 hk2 => hmin k (by omega) hk2)]
  · intro hPI hall
    unfold find_next_p_or_i_frame
    rw [hmax]
    simp only [Option.map_some']
    rw [if_neg (show ¬(lookupLast ft f = some 'I' ∨ lookupLast ft f = some 'P') from hPI)]
    rw [fnpiGo_none ft f (maxF - f) (f + 1)
      (fun k hk1 hk2 => hall k (by omega) (by omega))]

/-- Witness for C4 at the index `{0 ↦ I, 1 ↦ B, 3 ↦ P}`, `f = 1`:
frame 1 is `B`, the first `P`-or-`I` frame above it is frame 3. -/
theorem next_p_or_i_frame_spec_witness :
    find_next_p_or_i_frame 1 [(0, 'I'), (1, 'B'), (3, 'P')] = some 3 := by
  obtain ⟨maxF, hmax, _, hfound, _⟩ :=
    next_p_or_i_frame_spec [(0, 'I'), (1, 'B'), (3, 'P')] 1 (by decide)
  have hm : maxF = 3 := by
    rw [show maxKey? [((0 : Nat), 'I'), (1, 'B'), (3, 'P')] = some 3 from by decide] at hmax
    exact (Option.some.inj hmax).symm
  subst hm
  exact hfound (by decide) 3 (by decide) (by decide) (by decide)
    (fun k hk1 hk2 => by
      have : k = 2 := by omega
      subst this
      decide)

/-! ### `adjust_range` -/

theorem find_nth_le (ft : FrameTypes) (f n : Nat) :
    find_nth_previous_i_frame f ft n ≤ f :=
  fnpGo_le ft n f 0

theorem find_nth_le_maxKey {ft : FrameTypes} {maxF : Nat}
    (hmax : maxKey? ft = some maxF) (f n : Nat) :
    find_nth_previous_i_frame f ft n ≤ maxF := by
  rcases fnpGo_zero_or_I ft n f 0 with h | h
  · unfold find_nth_previous_i_frame
    rw [h]
    exact Nat.zero_le maxF
  · exact le_maxKey hmax _ (mem_keys_of_lookup h)

theorem fnpi_isSome_ge (ft : FrameTypes) (hft : ft ≠ []) (f : Nat) :
    ∃ r, find_next_p_or_i_frame f ft = some r ∧ f ≤ r := by
  obtain ⟨maxF, hmax⟩ := maxKey?_isSome hft
  unfold find_next_p_or_i_frame
  rw [hmax]
  simp only [Option.map_some']
  by_cases hPI : lookupLast ft f = some 'I' ∨ lookupLast ft f = some 'P'
  · rw [if_pos hPI]
    exact ⟨f, rfl, Nat.le_refl f⟩
  · rw [if_neg hPI]
    refine ⟨_, rfl, ?_⟩
    rcases fnpiGo_ge ft f (maxF - f) (f + 1) with h | h
    · rw [h]
    · omega

/-- The end boundary chosen by `adjust_range` exists on a non-empty index
and lies at or above the scan origin, or is the index maximum. -/
theorem newEnd_exists (ft : FrameTypes) (hft : ft ≠ []) (f : Nat) (sc : Bool) :
    ∃ r, (if sc then find_next_p_or_i_frame f ft
          else find_last_p_frame_before_next_i f ft) = some r ∧
      (f ≤ r ∨ maxKey? ft = some r) := by
  cases sc
  · obtain ⟨r, hr⟩ := flp_isSome hft f
    rcases flp_characterization hr with hc | hc
    · exact ⟨r, by simpa using hr, Or.inl hc.2⟩
    · exact ⟨r, by simpa using hr, Or.inr hc⟩
  · obtain ⟨r, hr, hge⟩ := fnpi_isSome_ge ft hft f
    exact ⟨r, by simpa using hr, Or.inl hge⟩

/-- C5: `adjust_range` never produces a non-positive length: whenever it
returns at all (the index is non-empty, so no `ValueError` propagates),
the returned length is at least 1.  The `InvalidRangeError` of the spec
is therefore vacuous: no input reaches a non-positive length. -/
theorem adjust_range_positive_length (ft : FrameTypes) (start len off : Nat)
    (sc : Bool) (hlen : 1 ≤ len) (hft : ft ≠ []) :
    ∃ ns nl, adjust_range start len ft off sc = some (ns, nl) ∧ 1 ≤ nl := by
  obtain ⟨maxF, hmax⟩ := maxKey?_isSome hft
  obtain ⟨r, hr, hor⟩ := newEnd_exists ft hft (start + len - 1) sc
  refine ⟨find_nth_previous_i_frame start ft off,
    (r : Int) - (find_nth_previous_i_frame start ft off : Int) + 1, ?_, ?_⟩
  · simp only [adjust_range]
    rw [hr]
    rfl
  · have hns_start : find_nth_previous_i_frame start ft off ≤ start := find_nth_le ft start off
    rcases hor with hge | hmaxr
    · omega
    · have hrm : r = maxF := by
        rw [hmax] at hmaxr
        exact (Option.some.inj hmaxr).symm
      have := find_nth_le_maxKey hmax start off
      omega

/-- Witness for C5 at the index `{0 ↦ I, 1 ↦ P, 2 ↦ P, 3 ↦ I}` with the
range `(1, 2)`, offset 1, full-GOP mode. -/
theorem adjust_range_positive_length_witness :
    ∃ ns nl, adjust_range 1 2 [(0, 'I'), (1, 'P'), (2, 'P'), (3, 'I')] 1 false
        = some (ns, nl) ∧ 1 ≤ nl :=
  adjust_range_positive_length [(0, 'I'), (1, 'P'), (2, 'P'), (3, 'I')] 1 2 1 false
    (by decide) (by decide)

/-- C1 counterexample: at the non-empty index `{0 ↦ I}` with the range
`(0, 2)` (frames 0–1), offset 1, full-GOP mode, `adjust_range` returns
`(0, 1)`: the adjusted end frame `0 + 1 - 1 = 0` is strictly below the
original end frame `0 + 2 - 1 = 1`, so adjustment contracted the range —
the unconditional containment guarantee of the claim is false. -/
theorem adjust_range_contraction_cex :
    adjust_range 0 2 [(0, 'I')] 1 false = some (0, 1) ∧
    ¬ ((0 : Int) + 2 - 1 ≤ (0 : Int) + 1 - 1) := by
  constructor
  · rfl
  · decide

/-- C1 (amended): for every cut range whose original end frame
`start + length - 1` does not exceed the maximum known frame number of a
non-empty index, the adjusted range fully contains the original:
`adjusted.start ≤ original.start` and
`adjusted.end = adjusted.start + adjusted.length - 1 ≥ original.end`,
under any configuration — adjustment only expands such a range outward
or leaves it unchanged. -/
theorem adjust_range_expands (ft : FrameTypes) (start len off : Nat) (sc : Bool)
    (hlen : 1 ≤ len) {maxF : Nat} (hmax : maxKey? ft = some maxF)
    (hend : start + len - 1 ≤ maxF) :
    ∃ ns nl, adjust_range start len ft off sc = some (ns, nl) ∧
      ns ≤ start ∧ (start : Int) + (len : Int) - 1 ≤ (ns : Int) + nl - 1 := by
  have hft : ft ≠ [] := by
    intro hnil
    rw [hnil] at hmax
    simp [maxKey?, keys] at hmax
  obtain ⟨r, hr, hor⟩ := newEnd_exists ft hft (start + len - 1) sc
  refine ⟨find_nth_previous_i_frame start ft off,
    (r : Int) - (find_nth_previous_i_frame start ft off : Int) + 1, ?_, ?_, ?_⟩
  · simp only [adjust_range]
    rw [hr]
    rfl
  · exact find_nth_le ft start off
  · have hend_r : start + len - 1 ≤ r := by
      rcases hor with hge | hmaxr
      · exact hge
      · rw [hmax] at hmaxr
        have : r = maxF := (Option.some.inj hmaxr).symm
        omega
    omega

/-- Witness for the amended C1 at the index
`{0 ↦ I, 1 ↦ P, 2 ↦ P, 3 ↦ I}` with the range `(1, 2)` (end frame 2 is
at most the maximum known frame 3), offset 1, full-GOP mode. -/
theorem adjust_range_expands_witness :
    ∃ ns nl, adjust_range 1 2 [(0, 'I'), (1, 'P'), (2, 'P'), (3, 'I')] 1 false
        = some (ns, nl) ∧
      ns ≤ 1 ∧ (1 : Int) + (2 : Int) - 1 ≤ (ns : Int) + nl - 1 :=
  adjust_range_expands [(0, 'I'), (1, 'P'), (2, 'P'), (3, 'I')] 1 2 1 false
    (by decide)
    (show maxKey? [((0 : Nat), 'I'), (1, 'P'), (2, 'P'), (3, 'I')] = some 3 by decide)
    (by decide)

/-! ### `merge_ranges` -/

/-- Consecutive ranges are separated by more than `minGap` frames
(Python `int` gap arithmetic). -/
def GapOK (minGap : Int) : List (Nat × Nat) → Prop :=
  List.Chain' (fun a b => minGap < (b.1 : Int) - ((a.1 : Int) + (a.2 : Int)))

theorem mergeGo_head (minGap : Int) :
    ∀ (l : List (Nat × Nat)) (prev : Nat × Nat),
      ∃ len t, mergeGo minGap prev l = (prev.1, len) :: t := by
  intro l
  induction l with
  | nil => intro prev; exact ⟨prev.2, [], rfl⟩
  | cons cur rest ih =>
    intro prev
    rw [mergeGo]
    split
    · exact ih (prev.1, Nat.max (prev.1 + prev.2) (cur.1 + cur.2) - prev.1)
    · exact ⟨prev.2, mergeGo minGap cur rest, rfl⟩

theorem mergeGo_gapOK (minGap : Int) :
    ∀ (l : List (Nat × Nat)) (prev : Nat × Nat),
      GapOK minGap (mergeGo minGap prev l) := by
  intro l
  induction l with
  | nil => intro prev; exact List.chain'_singleton prev
  | cons cur rest ih =>
    intro prev
    rw [mergeGo]
    split
    · exact ih _
    · next hgap =>
      obtain ⟨len, t, hht⟩ := mergeGo_head minGap rest cur
      rw [hht]
      refine List.Chain'.cons ?_ (hht ▸ ih cur)
      show minGap < ((cur.1 : Int)) - ((prev.1 : Int) + (prev.2 : Int))
      omega

theorem mergeGo_of_gapOK (minGap : Int) :
    ∀ (l : List (Nat × Nat)) (prev : Nat × Nat),
      GapOK minGap (prev :: l) → mergeGo minGap prev l = prev :: l := by
  intro l
  induction l with
  | nil => intro prev _; rfl
  | cons cur rest ih =>
    intro prev hchain
    rw [mergeGo]
    have hrel := List.chain'_cons.mp hchain
    rw [if_neg (by omega : ¬ ((cur.1 : Int) - ((prev.1 : Int) + (prev.2 : Int)) ≤ minGap))]
    rw [ih cur hrel.2]

theorem merge_of_gapOK {minGap : Int} {l : List (Nat × Nat)}
    (h : GapOK minGap l) : merge_ranges l minGap = l := by
  cases l with
  | nil => rfl
  | cons p rest => exact mergeGo_of_gapOK minGap rest p h

/-- C6: merging is idempotent — merging an already-merged, sorted range
list with the same `min_gap` returns the identical list. -/
theorem merge_ranges_idempotent (ranges : List (Nat × Nat)) (minGap : Int)
    (hsorted : List.Chain' (fun a b => a.1 ≤ b.1) ranges) (hgap : 0 ≤ minGap) :
    merge_ranges (merge_ranges ranges minGap) minGap = merge_ranges ranges minGap := by
  cases ranges with
  | nil => rfl
  | cons p rest => exact merge_of_gapOK (mergeGo_gapOK minGap rest p)

/-- Witness for C6 at the sorted list `[(0,10),(15,5),(30,5)]`,
`min_gap = 5` (the merge scenario in section 8 of the spec). -/
theorem merge_ranges_idempotent_witness :
    merge_ranges (merge_ranges [(0, 10), (15, 5), (30, 5)] 5) 5
      = merge_ranges [(0, 10), (15, 5), (30, 5)] 5 :=
  merge_ranges_idempotent [(0, 10), (15, 5), (30, 5)] 5
    (by norm_num [List.chain'_cons, List.chain'_singleton]) (by decide)

theorem mergeGo_starts (minGap : Int) :
    ∀ (l : List (Nat × Nat)) (prev : Nat × Nat),
      ∀ r ∈ mergeGo minGap prev l, r.1 = prev.1 ∨ r.1 ∈ l.map Prod.fst := by
  intro l
  induction l with
  | nil =>
    intro prev r hr
    rw [mergeGo] at hr
    rcases List.mem_singleton.mp hr with rfl
    exact Or.inl rfl
  | cons cur rest ih =>
    intro prev r hr
    rw [mergeGo] at hr
    split at hr
    · rcases ih _ r hr with h | h
      · exact Or.inl h
      · exact Or.inr (by simp [h])
    · rcases List.mem_cons.mp hr with rfl | h
      · exact Or.inl rfl
      · rcases ih cur r h with h' | h'
        · exact Or.inr (by simp [h'])
        · exact Or.inr (by simp [h'])

/-- C10: on a non-empty, sorted input with non-negative `min_gap`, the
merged output has strictly increasing starts, keeps the first input
start as its first start, draws every output start from some input
start, and separates consecutive output ranges by more than `min_gap`. -/
theorem merge_ranges_invariants (ranges : List (Nat × Nat)) (minGap : Int)
    (hne : ranges ≠ [])
    (hsorted : List.Chain' (fun a b => a.1 ≤ b.1) ranges) (hgap : 0 ≤ minGap) :
    List.Chain' (fun a b => a.1 < b.1) (merge_ranges ranges minGap) ∧
    (merge_ranges ranges minGap).head?.map Prod.fst = ranges.head?.map Prod.fst ∧
    (∀ r ∈ merge_ranges ranges minGap, r.1 ∈ ranges.map Prod.fst) ∧
    GapOK minGap (merge_ranges ranges minGap) := by
  cases ranges with
  | nil => exact absurd rfl hne
  | cons p rest =>
    have hgapOK := mergeGo_gapOK minGap rest p
    refine ⟨?_, ?_, ?_, hgapOK⟩
    · exact hgapOK.imp (fun hab => by omega)
    · obtain ⟨len, t, hht⟩ := mergeGo_head minGap rest p
      show (mergeGo minGap p rest).head?.map Prod.fst = _
      rw [hht]
      rfl
    · intro r hr
      rcases mergeGo_starts minGap rest p r hr with h | h
      · simp [h]
      · simp [h]

/-- Witness for C10 at the sorted list `[(0,10),(15,5),(30,5)]`,
`min_gap = 5`. -/
theorem merge_ranges_invariants_witness :
    List.Chain' (fun a b => a.1 < b.1) (merge_ranges [(0, 10), (15, 5), (30, 5)] 5) ∧
    (merge_ranges [(0, 10), (15, 5), (30, 5)] 5).head?.map Prod.fst
      = ([((0 : Nat), (10 : Nat)), (15, 5), (30, 5)]).head?.map Prod.fst ∧
    (∀ r ∈ merge_ranges [(0, 10), (15, 5), (30, 5)] 5,
      r.1 ∈ ([((0 : Nat), (10 : Nat)), (15, 5), (30, 5)]).map Prod.fst) ∧
    GapOK 5 (merge_ranges [(0, 10), (15, 5), (30, 5)] 5) :=
  merge_ranges_invariants [(0, 10), (15, 5), (30, 5)] 5 (by decide)
    (by norm_num [List.chain'_cons, List.chain'_singleton]) (by decide)

/-! ### Empty-index behaviour of the boundary searches -/

/-- C9 counterexample: on the empty index, `find_nth_previous_i_frame`
is not rejected — it scans down to frame 0 and returns the frame
number 0, so not every boundary-search primitive fails on an empty
index. -/
theorem empty_index_nth_previous_cex :
    find_nth_previous_i_frame 5 ([] : FrameTypes) 1 = 0 := by decide

/-- C9 (amended): on an index with no entries both primitives that
consult the maximum known frame — `find_last_p_frame_before_next_i` and
`find_next_p_or_i_frame` — fail (the `ValueError` raised by
`max(frame_types.keys())`, modelled as `none`), while
`find_nth_previous_i_frame` does not fail: it returns frame 0. -/
theorem empty_index_boundary_search (f n : Nat) (ft : FrameTypes) (h : ft = []) :
    find_nth_previous_i_frame f ft n = 0 ∧
    find_last_p_frame_before_next_i f ft = none ∧
    find_next_p_or_i_frame f ft = none := by
  subst h
  refine ⟨?_, rfl, rfl⟩
  rcases fnpGo_zero_or_I [] n f 0 with h0 | h0
  · exact h0
  · rw [lookupLast_nil] at h0
    cases h0

/-- Witness for the amended C9 at `f = 5`, `n = 1`. -/
theorem empty_index_boundary_search_witness :
    find_nth_previous_i_frame 5 ([] : FrameTypes) 1 = 0 ∧
    find_last_p_frame_before_next_i 5 ([] : FrameTypes) = none ∧
    find_next_p_or_i_frame 5 ([] : FrameTypes) = none :=
  empty_index_boundary_search 5 1 [] rfl

/-! ### `1stGOP_analyzer` -/

theorem range'_find?_found (p : Nat → Bool) :
    ∀ (n s g : Nat), s ≤ g → g < s + n → p g = true →
      (∀ k, s ≤ k → k < g → ¬ p k = true) →
      (List.range' s n).find? p = some g := by
  intro n
  induction n with
  | zero => intro s g h1 h2 _ _; omega
  | succ n ih =>
    intro s g h1 h2 hg hmin
    rw [List.range'_succ]
    by_cases hsg : s = g
    · subst hsg
      rw [List.find?_cons_of_pos _ hg]
    · rw [List.find?_cons_of_neg _ (hmin s (Nat.le_refl s) (by omega))]
      exact ih (s + 1) g (by omega) (by omega) hg
        (fun k hk1 hk2 => hmin k (by omega) hk2)

theorem range'_find?_none (p : Nat → Bool) :
    ∀ (n s : Nat), (∀ k, s ≤ k → k < s + n → ¬ p k = true) →
      (List.range' s n).find? p = none := by
  intro n
  induction n with
  | zero => intro s _; rfl
  | succ n ih =>
    intro s hall
    rw [List.range'_succ]
    rw [List.find?_cons_of_neg _ (hall s (Nat.le_refl s) (by omega))]
    exact ih (s + 1) (fun k hk1 hk2 => hall k (by omega) (by omega))

theorem find_next_i_frame_found {ft : FrameTypes} {startF endF g : Nat}
    (h1 : startF < g) (h2 : g ≤ endF) (hI : lookupLast ft g = some 'I')
    (hmin : ∀ k, startF < k → k < g → ¬ lookupLast ft k = some 'I') :
    find_next_i_frame startF endF ft = some g := by
  unfold find_next_i_frame
  apply range'_find?_found
  · omega
  · omega
  · simp only [beq_iff_eq]
    exact hI
  · intro k hk1 hk2
    simp only [beq_iff_eq]
    exact hmin k (by omega) hk2

theorem find_next_i_frame_none {ft : FrameTypes} {startF endF : Nat}
    (hall : ∀ k, startF < k → k ≤ endF → ¬ lookupLast ft k = some 'I') :
    find_next_i_frame startF endF ft = none := by
  unfold find_next_i_frame
  apply range'_find?_none
  intro k hk1 hk2
  simp only [beq_iff_eq]
  exact hall k (by omega) (by omega)

/-- Minimum fold helper, mirroring the maximum ones. -/
theorem foldl_min_le_init (l : List Nat) (a : Nat) : l.foldl Nat.min a ≤ a := by
  induction l generalizing a with
  | nil => exact Nat.le_refl a
  | cons b l ih =>
    exact Nat.le_trans (ih (Nat.min a b)) (Nat.min_le_left a b)

theorem foldl_min_le_mem {l : List Nat} {x : Nat} (h : x ∈ l) (a : Nat) :
    l.foldl Nat.min a ≤ x := by
  induction l generalizing a with
  | nil => cases h
  | cons b l ih =>
    rcases List.mem_cons.mp h with rfl | h'
    · exact Nat.le_trans (foldl_min_le_init l (Nat.min a x)) (Nat.min_le_right a x)
    · exact ih h' (Nat.min a b)

theorem foldl_min_eq_or_mem (l : List Nat) (a : Nat) :
    l.foldl Nat.min a = a ∨ l.foldl Nat.min a ∈ l := by
  induction l generalizing a with
  | nil => exact Or.inl rfl
  | cons b l ih =>
    simp only [List.foldl_cons]
    rcases ih (Nat.min a b) with h | h
    · rcases Nat.le_total a b with hab | hba
      · rw [show Nat.min a b = a from Nat.min_eq_left hab] at h ⊢
        exact Or.inl h
      · rw [show Nat.min a b = b from Nat.min_eq_right hba] at h ⊢
        exact Or.inr (by rw [h]; exact List.mem_cons_self b l)
    · exact Or.inr (List.mem_cons.mpr (Or.inr h))

theorem smallest_gop_spec {sizes : List Nat} (hne : sizes ≠ []) :
    ∃ mn, smallest_gop sizes = some mn ∧ mn ∈ sizes ∧ ∀ s ∈ sizes, mn ≤ s := by
  cases sizes with
  | nil => exact absurd rfl hne
  | cons s rest =>
    refine ⟨rest.foldl Nat.min s, rfl, ?_, ?_⟩
    · rcases foldl_min_eq_or_mem rest s with h | h
      · rw [h]; exact List.mem_cons_self s rest
      · exact List.mem_cons.mpr (Or.inr h)
    · intro x hx
      rcases List.mem_cons.mp hx with rfl | hx'
      · exact foldl_min_le_init rest x
      · exact foldl_min_le_mem hx' s

/-- C8: the GOP tolerance calculation maps each range, in input order, to
its starting-GOP size: the distance from `start_frame` to the first
I-frame strictly after `start_frame` and at or before
`end_frame = start_frame + length - 1`, or the full range length when no
such I-frame exists; the reported minimum is the least of the per-range
sizes. -/
theorem gop_tolerance_spec (ft : FrameTypes) (ranges : List (Nat × Nat)) :
    calculate_gop_sizes ranges ft = ranges.map (fun r => gop_size r.1 r.2 ft) ∧
    (∀ startF len g, startF < g → g ≤ startF + len - 1 →
      lookupLast ft g = some 'I' →
      (∀ k, startF < k → k < g → ¬ lookupLast ft k = some 'I') →
      gop_size startF len ft = g - startF) ∧
    (∀ startF len, (∀ k, startF < k → k ≤ startF + len - 1 →
        ¬ lookupLast ft k = some 'I') →
      gop_size startF len ft = len) ∧
    (ranges ≠ [] → ∃ mn, smallest_gop (calculate_gop_sizes ranges ft) = some mn ∧
      mn ∈ calculate_gop_sizes ranges ft ∧
      ∀ s ∈ calculate_gop_sizes ranges ft, mn ≤ s) := by
  refine ⟨rfl, ?_, ?_, ?_⟩
  · intro startF len g h1 h2 hI hmin
    simp only [gop_size]
    rw [find_next_i_frame_found h1 h2 hI hmin]
    simp only []
    rw [if_neg (by omega : ¬ g = 0)]
  · intro startF len hall
    simp only [gop_size]
    rw [find_next_i_frame_none hall]
  · intro hne
    apply smallest_gop_spec
    simp only [calculate_gop_sizes]
    intro hmap
    exact hne (List.map_eq_nil_iff.mp hmap)

/-- Witness for C8 on the index `{0 ↦ I, 1 ↦ P, 2 ↦ P, 3 ↦ I, 4 ↦ P}`:
the range `(2, 5)` has its first interior I-frame at frame 3, so its
starting-GOP size is 1. -/
theorem gop_tolerance_spec_witness :
    gop_size 2 5 [(0, 'I'), (1, 'P'), (2, 'P'), (3, 'I'), (4, 'P')] = 1 := by
  have h := (gop_tolerance_spec [(0, 'I'), (1, 'P'), (2, 'P'), (3, 'I'), (4, 'P')] []).2.1
  have h3 := h 2 5 3 (by decide) (by decide) (by decide)
    (fun k hk1 hk2 => by intro _; omega)
  simpa using h3

/-! ### `vdscript_to_timecode_cutlist_generator` -/

/-- C7: for a range whose start frame has a logged presentation time,
the generated duration is exact when the boundary frame
`start + length` is logged — `pts(boundary) - pts(start)`; otherwise it
is extrapolated as
`pts(last) + (pts(last) - pts(prev)) * (boundary - last) - pts(start)`
where `last` is the maximum known frame and `prev` the next-to-last
known frame, with `0.04` seconds as the inter-frame duration when only
one frame is known. -/
theorem segment_duration_spec (m : FramePts) (startF len : Nat) {startPts : ℚ}
    (hstart : lookupLast m startF = some startPts) :
    (∀ endPts, lookupLast m (startF + len) = some endPts →
      segment_duration m startF len = some (endPts - startPts)) ∧
    (lookupLast m (startF + len) = none →
      ∃ lastK lastPts, maxKey? m = some lastK ∧ lookupLast m lastK = some lastPts ∧
        ((∃ prevK prevPts, prevK ∈ keys m ∧ prevK ≠ lastK ∧
            (∀ k ∈ keys m, k ≠ lastK → k ≤ prevK) ∧
            lookupLast m prevK = some prevPts ∧
            segment_duration m startF len
              = some (lastPts + (lastPts - prevPts)
                  * (((startF + len : Nat) : ℚ) - (lastK : ℚ)) - startPts))
         ∨ ((∀ k ∈ keys m, k = lastK) ∧
            segment_duration m startF len
              = some (lastPts + (4 / 100)
                  * (((startF + len : Nat) : ℚ) - (lastK : ℚ)) - startPts)))) := by
  have hmne : m ≠ [] := by
    intro h
    rw [h, lookupLast_nil] at hstart
    cases hstart
  constructor
  · intro endPts hend
    simp only [segment_duration, hstart, hend]
  · intro hend
    obtain ⟨lastK, hlast⟩ := maxKey?_isSome hmne
    obtain ⟨lastPts, hlastPts⟩ := lookup_of_mem_keys (maxKey_mem hlast)
    refine ⟨lastK, lastPts, hlast, hlastPts, ?_⟩
    cases hprev : maxKey? (m.filter (fun e => e.1 != lastK)) with
    | none =>
      right
      have hfilter : m.filter (fun e => e.1 != lastK) = [] :=
        maxKey?_eq_none_iff.mp hprev
      constructor
      · intro k hk
        rcases List.mem_map.mp hk with ⟨e, he, rfl⟩
        have := List.filter_eq_nil_iff.mp hfilter e he
        simpa using this
      · simp only [segment_duration, hstart, hend, hlast, last_frame_dur, hprev,
          hlastPts, Option.getD_some]
    | some prevK =>
      left
      have hmemf : prevK ∈ keys (m.filter (fun e => e.1 != lastK)) :=
        maxKey_mem hprev
      rcases List.mem_map.mp hmemf with ⟨e, hef, hek⟩
      have hef' := List.mem_filter.mp hef
      have hkeys : prevK ∈ keys m := List.mem_map.mpr ⟨e, hef'.1, hek⟩
      have hne : prevK ≠ lastK := by
        have hb := hef'.2
        rw [hek] at hb
        simpa using hb
      obtain ⟨prevPts, hprevPts⟩ := lookup_of_mem_keys hkeys
      refine ⟨prevK, prevPts, hkeys, hne, ?_, hprevPts, ?_⟩
      · intro k hk hkne
        rcases List.mem_map.mp hk with ⟨e2, he2, he2k⟩
        have hmem2 : e2 ∈ m.filter (fun e => e.1 != lastK) :=
          List.mem_filter.mpr ⟨he2, by simp [he2k, hkne]⟩
        exact le_maxKey hprev k (List.mem_map.mpr ⟨e2, hmem2, he2k⟩)
      · simp only [segment_duration, hstart, hend, hlast, last_frame_dur, hprev,
          hlastPts, hprevPts, Option.getD_some]

/-- Witness for C7 at `{0 ↦ 0, 1 ↦ 1/2, 2 ↦ 3/4}`, range `(1, 1)`:
the boundary frame 2 is logged, so the duration is
`pts(2) - pts(1) = 3/4 - 1/2`. -/
theorem segment_duration_spec_witness :
    segment_duration [(0, (0 : ℚ)), (1, 1/2), (2, 3/4)] 1 1 = some (3/4 - 1/2) :=
  (segment_duration_spec [(0, (0 : ℚ)), (1, 1/2), (2, 3/4)] 1 1
    (show lookupLast [(0, (0 : ℚ)), (1, 1/2), (2, 3/4)] 1 = some (1/2) from rfl)).1
    (3/4) (by rfl)

end ExactCut
